import Mathlib

/-!
Verification of the bounding-box evaluation utilities (utils.py):
precision / recall, bounding-box IoU, average precision at k, mean average
precision at k, randomized box jitter and stochastic box dropout.

Modelling conventions:
* a bounding box `[tly, tlx, bry, brx]` becomes a record of four integers;
* Python real division becomes division on `ℚ`; a `ZeroDivisionError`
  becomes `none` in an `Option ℚ` result;
* `np.random.randint(low, high)` and `np.random.random()` are modelled by
  caller-supplied streams of draws (`ℕ → ℤ`, `ℕ → ℚ`), consumed in the
  order the source draws them.
-/

namespace Utils

/-- A bounding box `(top, left, bottom, right)` in pixel coordinates,
matching the source convention `[tly, tlx, bry, brx]`. -/
structure BBox where
  tly : ℤ
  tlx : ℤ
  bry : ℤ
  brx : ℤ
deriving DecidableEq, Repr

/-- `precision(tp, fp) = tp / (tp + fp)`; `none` models the
`ZeroDivisionError` raised when `tp + fp == 0`. -/
def precision (tp fp : ℚ) : Option ℚ :=
  if tp + fp = 0 then none else some (tp / (tp + fp))

/-- `recall(tp, fn) = tp / (tp + fn)`; `none` models the
`ZeroDivisionError` raised when `tp + fn == 0`. -/
def «recall» (tp fn : ℚ) : Option ℚ :=
  if tp + fn = 0 then none else some (tp / (tp + fn))

/-- `bbox_iou(bbox_a, bbox_b)`: intersection over union with the inclusive
(+1) pixel convention; `none` models the `ZeroDivisionError` raised when
the union area `bbox_a_area + bbox_b_area - inter_area` is zero. -/
def bbox_iou (bbox_a bbox_b : BBox) : Option ℚ :=
  let x_a := max bbox_a.tlx bbox_b.tlx
  let y_a := max bbox_a.tly bbox_b.tly
  let x_b := min bbox_a.brx bbox_b.brx
  let y_b := min bbox_a.bry bbox_b.bry
  let inter_area := max 0 (x_b - x_a + 1) * max 0 (y_b - y_a + 1)
  let bbox_a_area := (bbox_a.bry - bbox_a.tly + 1) * (bbox_a.brx - bbox_a.tlx + 1)
  let bbox_b_area := (bbox_b.bry - bbox_b.tly + 1) * (bbox_b.brx - bbox_b.tlx + 1)
  if bbox_a_area + bbox_b_area - inter_area = 0 then none
  else some ((inter_area : ℚ) / ((bbox_a_area + bbox_b_area - inter_area : ℤ) : ℚ))

/-- Loop of `create_or_destroy_bboxes`: the `n`-th remaining box consumes the
`n`-th value of the `np.random.random()` stream and is kept when
`prob < rand n`. -/
def create_or_destroy_loop {α : Type} (rand : ℕ → ℚ) (prob : ℚ) : ℕ → List α → List α
  | _, [] => []
  | n, bbox :: rest =>
    if prob < rand n then bbox :: create_or_destroy_loop rand prob (n + 1) rest
    else create_or_destroy_loop rand prob (n + 1) rest

/-- `create_or_destroy_bboxes(bboxes, prob)`: build a fresh list keeping each
box whose fresh uniform draw `v` satisfies `prob < v`. -/
def create_or_destroy_bboxes {α : Type} (rand : ℕ → ℚ) (bboxes : List α) (prob : ℚ) :
    List α :=
  create_or_destroy_loop rand prob 0 bboxes

/-- Model of `np.random.randint(low, high)` applied to one raw draw `v`:
a value in `[low, high)` whenever `low < high`. -/
def randint (low high v : ℤ) : ℤ :=
  low + v % (high - low)

/-- One `np.random.randint(low, high, size=2)` call, consuming stream
positions `pos` and `pos + 1`. -/
def randpair (low high : ℤ) (stream : ℕ → ℤ) (pos : ℕ) : ℤ × ℤ :=
  (randint low high (stream pos), randint low high (stream (pos + 1)))

/-- Position part of the `add_noise_to_bboxes` loop body: the vertical offset
`change_position.1` is added to `tly` and `bry` together only when neither
result leaves `[0, shape.1]`, and likewise `change_position.2` for `tlx` and
`brx` against `[0, shape.2]`. -/
def noisy_bbox_position (shape : ℤ × ℤ) (change_position : ℤ × ℤ) (bbox : BBox) : BBox :=
  let b1 :=
    if ¬(bbox.tly + change_position.1 < 0 ∨ shape.1 < bbox.tly + change_position.1 ∨
         bbox.bry + change_position.1 < 0 ∨ shape.1 < bbox.bry + change_position.1) then
      { bbox with tly := bbox.tly + change_position.1, bry := bbox.bry + change_position.1 }
    else bbox
  if ¬(b1.tlx + change_position.2 < 0 ∨ shape.2 < b1.tlx + change_position.2 ∨
       b1.brx + change_position.2 < 0 ∨ shape.2 < b1.brx + change_position.2) then
    { b1 with tlx := b1.tlx + change_position.2, brx := b1.brx + change_position.2 }
  else b1

/-- Size part of the `add_noise_to_bboxes` loop body: each of the four
coordinates is tested and adjusted on its own (`change_size.1` for the
vertical pair against `[0, shape.1]`, `change_size.2` for the horizontal pair
against `[0, shape.2]`). -/
def noisy_bbox_size (shape : ℤ × ℤ) (change_size : ℤ × ℤ) (bbox : BBox) : BBox :=
  let tly := if ¬(bbox.tly + change_size.1 < 0 ∨ shape.1 < bbox.tly + change_size.1) then
    bbox.tly + change_size.1 else bbox.tly
  let bry := if ¬(bbox.bry + change_size.1 < 0 ∨ shape.1 < bbox.bry + change_size.1) then
    bbox.bry + change_size.1 else bbox.bry
  let tlx := if ¬(bbox.tlx + change_size.2 < 0 ∨ shape.2 < bbox.tlx + change_size.2) then
    bbox.tlx + change_size.2 else bbox.tlx
  let brx := if ¬(bbox.brx + change_size.2 < 0 ∨ shape.2 < bbox.brx + change_size.2) then
    bbox.brx + change_size.2 else bbox.brx
  ⟨tly, tlx, bry, brx⟩

/-- Full `add_noise_to_bboxes` loop body: position moves first, then size
adjustments on the (possibly moved) coordinates, exactly as the source
mutates `bbox` in place. -/
def noisy_bbox (shape : ℤ × ℤ) (change_position change_size : ℤ × ℤ) (bbox : BBox) :
    BBox :=
  noisy_bbox_size shape change_size (noisy_bbox_position shape change_position bbox)

/-- `add_noise_to_bboxes(bboxes, shape, noise_size, noise_size_factor,
noise_position, noise_position_factor)`: draw one shared position offset and
one shared size offset, then apply them to every box.  As in the source, the
position draw uses `noise_size_factor` as its bound and the size draw uses
`noise_position_factor`; a skipped draw leaves the stream position
unconsumed. -/
def add_noise_to_bboxes (stream : ℕ → ℤ) (bboxes : List BBox) (shape : ℤ × ℤ)
    (noise_size : Bool) (noise_size_factor : ℤ)
    (noise_position : Bool) (noise_position_factor : ℤ) : List BBox :=
  let change_position :=
    if noise_position then randpair (-noise_size_factor) noise_size_factor stream 0
    else (0, 0)
  let next_pos : ℕ := if noise_position then 2 else 0
  let change_size :=
    if noise_size then randpair (-noise_position_factor) noise_position_factor stream next_pos
    else (0, 0)
  bboxes.map (noisy_bbox shape change_position change_size)

/-- A concrete integer draw stream used to instantiate the randomized
operators on concrete inputs. -/
def constStream : ℕ → ℤ :=
  fun _ => 3

/-- Loop of `apk`: walk `rest`, the suffix of the (already truncated)
prediction list `pred` starting at 0-based index `i`; each item that is a
member of `actual` and does not occur in the prefix `pred.take i` bumps
`num_hits` and adds `num_hits / (i + 1)` to `score`. -/
def apk_loop {α : Type} [DecidableEq α] (actual pred : List α) :
    ℕ → List α → ℕ → ℚ → ℚ
  | _, [], _, score => score
  | i, p :: rest, num_hits, score =>
    if p ∈ actual ∧ p ∉ pred.take i then
      apk_loop actual pred (i + 1) rest (num_hits + 1)
        (score + ((num_hits : ℚ) + 1) / ((i : ℚ) + 1))
    else
      apk_loop actual pred (i + 1) rest num_hits score

/-- `apk(actual, predicted, k)`: truncate `predicted` to its first `k`
elements when longer, run the scoring loop, return `0.0` when `actual` is
empty and `score / min(len(actual), k)` otherwise. -/
def apk {α : Type} [DecidableEq α] (actual predicted : List α) (k : ℕ) : ℚ :=
  let truncated := if k < predicted.length then predicted.take k else predicted
  let score := apk_loop actual truncated 0 truncated 0 0
  if actual = [] then 0
  else score / ((min actual.length k : ℕ) : ℚ)

/-- `np.mean` of a list of rationals: sum divided by length. -/
def np_mean (l : List ℚ) : ℚ :=
  l.sum / (l.length : ℚ)

/-- `mapk(actual, predicted, k)`: the mean of `apk` over the zipped pairs of
lists (zipping stops at the shorter list). -/
def mapk {α : Type} [DecidableEq α] (actual predicted : List (List α)) (k : ℕ) : ℚ :=
  np_mean ((actual.zip predicted).map (fun ap => apk ap.1 ap.2 k))

/-- The spec's reference algorithm `averagePrecisionAtK`, written
independently as a left fold over the enumerated truncated prediction list:
an item earns `numHits / (i + 1)` exactly when it belongs to `actual` and is
its own first occurrence in the truncated list; empty `actual` yields `0.0`;
otherwise the score is divided by `min(|actual|, k)`. -/
def averagePrecisionAtK {α : Type} [DecidableEq α] (actual predicted : List α)
    (k : ℕ) : ℚ :=
  let pred := if k < predicted.length then predicted.take k else predicted
  let final := pred.enum.foldl
    (fun (st : ℕ × ℚ) ip =>
      if ip.2 ∈ actual ∧ ip.2 ∉ pred.take ip.1 then
        (st.1 + 1, st.2 + ((st.1 : ℚ) + 1) / ((ip.1 : ℚ) + 1))
      else st)
    ((0 : ℕ), (0 : ℚ))
  if actual = [] then 0
  else final.2 / ((min actual.length k : ℕ) : ℚ)

end Utils

namespace Utils

/-- C1: `bbox_iou` returns `interArea / (areaA + areaB - interArea)` with the
inclusive-pixel areas and the clamped intersection rectangle, whenever the
denominator is non-zero. -/
theorem bbox_iou_formula (a b : BBox)
    (h : (a.bry - a.tly + 1) * (a.brx - a.tlx + 1)
        + (b.bry - b.tly + 1) * (b.brx - b.tlx + 1)
        - max 0 (min a.brx b.brx - max a.tlx b.tlx + 1)
          * max 0 (min a.bry b.bry - max a.tly b.tly + 1) ≠ 0) :
    bbox_iou a b =
      some (((max 0 (min a.brx b.brx - max a.tlx b.tlx + 1)
              * max 0 (min a.bry b.bry - max a.tly b.tly + 1) : ℤ) : ℚ)
        / (((a.bry - a.tly + 1) * (a.brx - a.tlx + 1)
            + (b.bry - b.tly + 1) * (b.brx - b.tlx + 1)
            - max 0 (min a.brx b.brx - max a.tlx b.tlx + 1)
              * max 0 (min a.bry b.bry - max a.tly b.tly + 1) : ℤ) : ℚ)) := by
  simp only [bbox_iou]
  rw [if_neg h]

/-- Witness for C1 at two identical 2×2 boxes. -/
theorem bbox_iou_formula_witness :
    bbox_iou ⟨0, 0, 1, 1⟩ ⟨0, 0, 1, 1⟩ = some 1 := by
  rw [bbox_iou_formula ⟨0, 0, 1, 1⟩ ⟨0, 0, 1, 1⟩ (by decide)]
  norm_num

/-- C2: `precision`, `recall` and `bbox_iou` fail with division-by-zero
(`none`) exactly when their denominators vanish, and the error is surfaced
rather than coerced to 0; concretely `precision 0 0` fails while
`precision 5 0 = 1`. -/
theorem division_by_zero_surfaced :
    (∀ tp fp : ℚ, precision tp fp = none ↔ tp + fp = 0) ∧
    (∀ tp fn : ℚ, «recall» tp fn = none ↔ tp + fn = 0) ∧
    (∀ a b : BBox, bbox_iou a b = none ↔
      (a.bry - a.tly + 1) * (a.brx - a.tlx + 1)
        + (b.bry - b.tly + 1) * (b.brx - b.tlx + 1)
        - max 0 (min a.brx b.brx - max a.tlx b.tlx + 1)
          * max 0 (min a.bry b.bry - max a.tly b.tly + 1) = 0) ∧
    precision 0 0 = none ∧ precision 5 0 = some 1 := by
  refine ⟨?_, ?_, ?_, ?_, ?_⟩
  · intro tp fp
    simp only [precision]
    split_ifs with h <;> simp [h]
  · intro tp fn
    simp only [«recall»]
    split_ifs with h <;> simp [h]
  · intro a b
    simp only [bbox_iou]
    split_ifs with h <;> simp [h]
  · simp [precision]
  · norm_num [precision]

lemma create_or_destroy_loop_eq {α : Type} (rand : ℕ → ℚ) (prob : ℚ) (l : List α) :
    ∀ n : ℕ,
      create_or_destroy_loop rand prob n l =
        ((l.enumFrom n).filter (fun ib => prob < rand ib.1)).map Prod.snd := by
  induction l with
  | nil => intro n; simp [create_or_destroy_loop]
  | cons b rest ih =>
    intro n
    by_cases h : prob < rand n
    · simp [create_or_destroy_loop, h, ih]
    · simp [create_or_destroy_loop, h, ih]

/-- C9: `create_or_destroy_bboxes` builds a fresh list retaining exactly the
boxes whose `i`-th uniform draw `v` satisfies `prob < v`, in input order (it
is a sublist of the input). -/
theorem create_or_destroy_bboxes_spec {α : Type} (rand : ℕ → ℚ) (bboxes : List α)
    (prob : ℚ) :
    create_or_destroy_bboxes rand bboxes prob =
      (bboxes.enum.filter (fun ib => prob < rand ib.1)).map Prod.snd ∧
    (create_or_destroy_bboxes rand bboxes prob).Sublist bboxes := by
  have heq := create_or_destroy_loop_eq rand prob bboxes 0
  constructor
  · exact heq
  · rw [create_or_destroy_bboxes, heq]
    have hsub : ((bboxes.enumFrom 0).filter (fun ib => prob < rand ib.1)).Sublist
        (bboxes.enumFrom 0) := List.filter_sublist _
    have := hsub.map Prod.snd
    rwa [List.enumFrom_map_snd] at this

lemma not_or_bound (x s : ℤ) : (¬(x < 0 ∨ s < x)) ↔ (0 ≤ x ∧ x ≤ s) := by
  omega

lemma not_or_bound2 (x y s : ℤ) :
    (¬(x < 0 ∨ s < x ∨ y < 0 ∨ s < y)) ↔ (0 ≤ x ∧ x ≤ s ∧ 0 ≤ y ∧ y ≤ s) := by
  omega

/-- C6: in the `add_noise_to_bboxes` loop body, the position offset is
applied per axis all-or-nothing (both endpoints of an axis move together,
and only when both results stay within the axis bound), whereas the size
offset is tested and applied per endpoint independently. -/
theorem add_noise_position_pairwise_size_pointwise (shape cp cs : ℤ × ℤ) (b : BBox) :
    (((noisy_bbox_position shape cp b).tly = b.tly + cp.1 ∧
      (noisy_bbox_position shape cp b).bry = b.bry + cp.1 ∧
      0 ≤ b.tly + cp.1 ∧ b.tly + cp.1 ≤ shape.1 ∧
      0 ≤ b.bry + cp.1 ∧ b.bry + cp.1 ≤ shape.1) ∨
     ((noisy_bbox_position shape cp b).tly = b.tly ∧
      (noisy_bbox_position shape cp b).bry = b.bry ∧
      ¬(0 ≤ b.tly + cp.1 ∧ b.tly + cp.1 ≤ shape.1 ∧
        0 ≤ b.bry + cp.1 ∧ b.bry + cp.1 ≤ shape.1))) ∧
    (((noisy_bbox_position shape cp b).tlx = b.tlx + cp.2 ∧
      (noisy_bbox_position shape cp b).brx = b.brx + cp.2 ∧
      0 ≤ b.tlx + cp.2 ∧ b.tlx + cp.2 ≤ shape.2 ∧
      0 ≤ b.brx + cp.2 ∧ b.brx + cp.2 ≤ shape.2) ∨
     ((noisy_bbox_position shape cp b).tlx = b.tlx ∧
      (noisy_bbox_position shape cp b).brx = b.brx ∧
      ¬(0 ≤ b.tlx + cp.2 ∧ b.tlx + cp.2 ≤ shape.2 ∧
        0 ≤ b.brx + cp.2 ∧ b.brx + cp.2 ≤ shape.2))) ∧
    (∀ p : BBox, noisy_bbox_size shape cs p =
      ⟨if 0 ≤ p.tly + cs.1 ∧ p.tly + cs.1 ≤ shape.1 then p.tly + cs.1 else p.tly,
       if 0 ≤ p.tlx + cs.2 ∧ p.tlx + cs.2 ≤ shape.2 then p.tlx + cs.2 else p.tlx,
       if 0 ≤ p.bry + cs.1 ∧ p.bry + cs.1 ≤ shape.1 then p.bry + cs.1 else p.bry,
       if 0 ≤ p.brx + cs.2 ∧ p.brx + cs.2 ≤ shape.2 then p.brx + cs.2 else p.brx⟩) ∧
    noisy_bbox shape cp cs b = noisy_bbox_size shape cs (noisy_bbox_position shape cp b) := by
  refine ⟨?_, ?_, ?_, rfl⟩
  · simp only [noisy_bbox_position, not_or_bound2]
    split_ifs with h1 h2 <;> simp_all
  · simp only [noisy_bbox_position, not_or_bound2]
    split_ifs with h1 h2 <;> simp_all
  · intro p
    simp only [noisy_bbox_size, not_or_bound]

lemma randint_mem (low high v : ℤ) (h : low < high) :
    low ≤ randint low high v ∧ randint low high v < high := by
  have h0 : (0 : ℤ) < high - low := by omega
  have h1 := Int.emod_nonneg v (by omega : high - low ≠ 0)
  have h2 := Int.emod_lt_of_pos v h0
  rw [randint]
  omega

lemma noisy_bbox_position_eq (shape cp : ℤ × ℤ) (b : BBox) :
    noisy_bbox_position shape cp b =
      ⟨if ¬(b.tly + cp.1 < 0 ∨ shape.1 < b.tly + cp.1 ∨
            b.bry + cp.1 < 0 ∨ shape.1 < b.bry + cp.1) then b.tly + cp.1 else b.tly,
       if ¬(b.tlx + cp.2 < 0 ∨ shape.2 < b.tlx + cp.2 ∨
            b.brx + cp.2 < 0 ∨ shape.2 < b.brx + cp.2) then b.tlx + cp.2 else b.tlx,
       if ¬(b.tly + cp.1 < 0 ∨ shape.1 < b.tly + cp.1 ∨
            b.bry + cp.1 < 0 ∨ shape.1 < b.bry + cp.1) then b.bry + cp.1 else b.bry,
       if ¬(b.tlx + cp.2 < 0 ∨ shape.2 < b.tlx + cp.2 ∨
            b.brx + cp.2 < 0 ∨ shape.2 < b.brx + cp.2) then b.brx + cp.2 else b.brx⟩ := by
  simp only [noisy_bbox_position]
  split_ifs with h1 h2 h3 <;> simp_all

lemma noisy_bbox_size_eq (shape cs : ℤ × ℤ) (b : BBox) :
    noisy_bbox_size shape cs b =
      ⟨if ¬(b.tly + cs.1 < 0 ∨ shape.1 < b.tly + cs.1) then b.tly + cs.1 else b.tly,
       if ¬(b.tlx + cs.2 < 0 ∨ shape.2 < b.tlx + cs.2) then b.tlx + cs.2 else b.tlx,
       if ¬(b.bry + cs.1 < 0 ∨ shape.1 < b.bry + cs.1) then b.bry + cs.1 else b.bry,
       if ¬(b.brx + cs.2 < 0 ∨ shape.2 < b.brx + cs.2) then b.brx + cs.2 else b.brx⟩ :=
  rfl

/-- C7: with both noise flags on, `add_noise_to_bboxes` draws one shared
position offset and one shared size offset and applies the very same pair
to every box; the position components lie in
`[-noise_size_factor, noise_size_factor)` and the size components in
`[-noise_position_factor, noise_position_factor)` — the two factor
parameters are swapped between the draws. -/
theorem add_noise_shared_swapped_offsets (stream : ℕ → ℤ) (bboxes : List BBox)
    (shape : ℤ × ℤ) (nsf npf : ℤ) (hs : 0 < nsf) (hp : 0 < npf) :
    add_noise_to_bboxes stream bboxes shape true nsf true npf =
      bboxes.map
        (noisy_bbox shape (randpair (-nsf) nsf stream 0) (randpair (-npf) npf stream 2)) ∧
    -nsf ≤ (randpair (-nsf) nsf stream 0).1 ∧ (randpair (-nsf) nsf stream 0).1 < nsf ∧
    -nsf ≤ (randpair (-nsf) nsf stream 0).2 ∧ (randpair (-nsf) nsf stream 0).2 < nsf ∧
    -npf ≤ (randpair (-npf) npf stream 2).1 ∧ (randpair (-npf) npf stream 2).1 < npf ∧
    -npf ≤ (randpair (-npf) npf stream 2).2 ∧ (randpair (-npf) npf stream 2).2 < npf := by
  have hnsf : -nsf < nsf := by omega
  have hnpf : -npf < npf := by omega
  refine ⟨rfl, ?_, ?_, ?_, ?_, ?_, ?_, ?_, ?_⟩
  · exact (randint_mem _ _ _ hnsf).1
  · exact (randint_mem _ _ _ hnsf).2
  · exact (randint_mem _ _ _ hnsf).1
  · exact (randint_mem _ _ _ hnsf).2
  · exact (randint_mem _ _ _ hnpf).1
  · exact (randint_mem _ _ _ hnpf).2
  · exact (randint_mem _ _ _ hnpf).1
  · exact (randint_mem _ _ _ hnpf).2

/-- Witness for C7 with a concrete stream, box list and factors. -/
theorem add_noise_shared_swapped_offsets_witness :
    (0 : ℤ) < 5 ∧
    (add_noise_to_bboxes constStream [⟨2, 2, 4, 4⟩] (10, 10) true 5 true 5 =
      [(⟨2, 2, 4, 4⟩ : BBox)].map
        (noisy_bbox (10, 10) (randpair (-5) 5 constStream 0)
          (randpair (-5) 5 constStream 2)) ∧
    -5 ≤ (randpair (-5) 5 constStream 0).1 ∧ (randpair (-5) 5 constStream 0).1 < 5 ∧
    -5 ≤ (randpair (-5) 5 constStream 0).2 ∧ (randpair (-5) 5 constStream 0).2 < 5 ∧
    -5 ≤ (randpair (-5) 5 constStream 2).1 ∧ (randpair (-5) 5 constStream 2).1 < 5 ∧
    -5 ≤ (randpair (-5) 5 constStream 2).2 ∧ (randpair (-5) 5 constStream 2).2 < 5) :=
  ⟨by norm_num,
   add_noise_shared_swapped_offsets constStream [⟨2, 2, 4, 4⟩] (10, 10) 5 5
     (by norm_num) (by norm_num)⟩

/-- C8 counterexample: with a zero-sized extent `(0, 0)` a candidate move is
NOT always rejected — offsets that land a coordinate exactly on 0 are
applied, so a box can change. -/
theorem add_noise_zero_extent_cex :
    add_noise_to_bboxes constStream [⟨2, 2, 2, 2⟩] (0, 0) true 5 true 5 ≠
      [(⟨2, 2, 2, 2⟩ : BBox)] := by
  decide

lemma noisy_bbox_zero_extent (cp cs : ℤ × ℤ) (b : BBox) :
    ((noisy_bbox (0, 0) cp cs b).tly = b.tly ∨ (noisy_bbox (0, 0) cp cs b).tly = 0) ∧
    ((noisy_bbox (0, 0) cp cs b).tlx = b.tlx ∨ (noisy_bbox (0, 0) cp cs b).tlx = 0) ∧
    ((noisy_bbox (0, 0) cp cs b).bry = b.bry ∨ (noisy_bbox (0, 0) cp cs b).bry = 0) ∧
    ((noisy_bbox (0, 0) cp cs b).brx = b.brx ∨ (noisy_bbox (0, 0) cp cs b).brx = 0) := by
  simp only [noisy_bbox, noisy_bbox_position_eq, noisy_bbox_size_eq]
  split_ifs <;> omega

/-- C8 amended: with a zero-sized extent `(0, 0)`, every coordinate of every
returned box is either its original value or exactly 0 (a move is applied
only when it lands the affected endpoints exactly on 0). -/
theorem add_noise_zero_extent_amended (stream : ℕ → ℤ) (bboxes : List BBox)
    (ns : Bool) (nsf : ℤ) (np : Bool) (npf : ℤ) :
    List.Forall₂
      (fun b' b => (b'.tly = b.tly ∨ b'.tly = 0) ∧ (b'.tlx = b.tlx ∨ b'.tlx = 0) ∧
        (b'.bry = b.bry ∨ b'.bry = 0) ∧ (b'.brx = b.brx ∨ b'.brx = 0))
      (add_noise_to_bboxes stream bboxes (0, 0) ns nsf np npf) bboxes := by
  simp only [add_noise_to_bboxes]
  rw [List.forall₂_map_left_iff, List.forall₂_same]
  intro x _
  exact noisy_bbox_zero_extent _ _ x

lemma noisy_bbox_preserves_bounds (shape cp cs : ℤ × ℤ) (b : BBox) :
    (0 ≤ b.tly → b.tly ≤ shape.1 →
      0 ≤ (noisy_bbox shape cp cs b).tly ∧ (noisy_bbox shape cp cs b).tly ≤ shape.1) ∧
    (0 ≤ b.tlx → b.tlx ≤ shape.2 →
      0 ≤ (noisy_bbox shape cp cs b).tlx ∧ (noisy_bbox shape cp cs b).tlx ≤ shape.2) ∧
    (0 ≤ b.bry → b.bry ≤ shape.1 →
      0 ≤ (noisy_bbox shape cp cs b).bry ∧ (noisy_bbox shape cp cs b).bry ≤ shape.1) ∧
    (0 ≤ b.brx → b.brx ≤ shape.2 →
      0 ≤ (noisy_bbox shape cp cs b).brx ∧ (noisy_bbox shape cp cs b).brx ≤ shape.2) := by
  simp only [noisy_bbox, noisy_bbox_position_eq, noisy_bbox_size_eq]
  split_ifs <;> omega

/-- C10: `add_noise_to_bboxes` preserves in-bounds coordinates — any
coordinate of any box lying within its axis bound (`[0, shape.1]` for
vertical, `[0, shape.2]` for horizontal) before the call still lies within
that bound after the call, for any drawn offsets. -/
theorem add_noise_preserves_inbounds_coords (stream : ℕ → ℤ) (bboxes : List BBox)
    (shape : ℤ × ℤ) (ns : Bool) (nsf : ℤ) (np : Bool) (npf : ℤ) :
    List.Forall₂
      (fun b' b =>
        (0 ≤ b.tly → b.tly ≤ shape.1 → 0 ≤ b'.tly ∧ b'.tly ≤ shape.1) ∧
        (0 ≤ b.tlx → b.tlx ≤ shape.2 → 0 ≤ b'.tlx ∧ b'.tlx ≤ shape.2) ∧
        (0 ≤ b.bry → b.bry ≤ shape.1 → 0 ≤ b'.bry ∧ b'.bry ≤ shape.1) ∧
        (0 ≤ b.brx → b.brx ≤ shape.2 → 0 ≤ b'.brx ∧ b'.brx ≤ shape.2))
      (add_noise_to_bboxes stream bboxes shape ns nsf np npf) bboxes := by
  simp only [add_noise_to_bboxes]
  rw [List.forall₂_map_left_iff, List.forall₂_same]
  intro x _
  exact noisy_bbox_preserves_bounds shape _ _ x

lemma apk_loop_eq_foldl {α : Type} [DecidableEq α] (actual pred : List α)
    (rest : List α) :
    ∀ (i nh : ℕ) (sc : ℚ),
      apk_loop actual pred i rest nh sc =
        ((rest.enumFrom i).foldl
          (fun (st : ℕ × ℚ) ip =>
            if ip.2 ∈ actual ∧ ip.2 ∉ pred.take ip.1 then
              (st.1 + 1, st.2 + ((st.1 : ℚ) + 1) / ((ip.1 : ℚ) + 1))
            else st)
          (nh, sc)).2 := by
  induction rest with
  | nil => intro i nh sc; simp [apk_loop]
  | cons p rest ih =>
    intro i nh sc
    by_cases h : p ∈ actual ∧ p ∉ pred.take i
    · simp only [apk_loop, if_pos h, List.enumFrom, List.foldl_cons, ih]
    · simp only [apk_loop, if_neg h, List.enumFrom, List.foldl_cons, ih]

/-- C3: `apk` computes exactly the reference algorithm of the spec
(`averagePrecisionAtK`): truncate to `k`, credit `numHits/(i+1)` to first
occurrences of members of `actual`, return `0` for empty `actual`, else
`score / min(|actual|, k)`. -/
theorem apk_eq_averagePrecisionAtK {α : Type} [DecidableEq α]
    (actual predicted : List α) (k : ℕ) :
    apk actual predicted k = averagePrecisionAtK actual predicted k := by
  simp only [apk, averagePrecisionAtK]
  rw [apk_loop_eq_foldl]
  rfl

lemma le_apk_loop {α : Type} [DecidableEq α] (actual pred : List α) (rest : List α) :
    ∀ (i nh : ℕ) (sc : ℚ), sc ≤ apk_loop actual pred i rest nh sc := by
  induction rest with
  | nil => intro i nh sc; simp [apk_loop]
  | cons p rest ih =>
    intro i nh sc
    by_cases h : p ∈ actual ∧ p ∉ pred.take i
    · simp only [apk_loop, if_pos h]
      refine le_trans ?_ (ih (i + 1) (nh + 1) _)
      have hterm : (0 : ℚ) ≤ ((nh : ℚ) + 1) / ((i : ℚ) + 1) := by positivity
      linarith
    · simp only [apk_loop, if_neg h]
      exact ih (i + 1) nh sc

lemma length_filter_ne_lt {α : Type} [DecidableEq α] (p : α) :
    ∀ l : List α, p ∈ l → (l.filter (fun x => x ≠ p)).length < l.length := by
  intro l
  induction l with
  | nil => intro h; cases h
  | cons a l ih =>
    intro h
    by_cases hap : a = p
    · have heq : List.filter (fun x => decide (x ≠ p)) (a :: l) =
          List.filter (fun x => decide (x ≠ p)) l := by
        simp [List.filter_cons, hap]
      rw [heq, List.length_cons]
      exact Nat.lt_succ_of_le (List.length_filter_le _ _)
    · have heq : List.filter (fun x => decide (x ≠ p)) (a :: l) =
          a :: List.filter (fun x => decide (x ≠ p)) l := by
        simp [List.filter_cons, hap]
      rw [heq, List.length_cons, List.length_cons]
      have hpl : p ∈ l := by
        rcases List.mem_cons.mp h with h1 | h1
        · exact absurd h1.symm hap
        · exact h1
      exact Nat.succ_lt_succ (ih hpl)

lemma apk_loop_le {α : Type} [DecidableEq α] (actual : List α) (rest : List α) :
    ∀ (pref : List α) (nh : ℕ) (sc : ℚ),
      nh ≤ pref.length →
      apk_loop actual (pref ++ rest) pref.length rest nh sc ≤
        sc + ((min rest.length
          ((actual.dedup.filter (fun x => x ∉ pref)).length) : ℕ) : ℚ) := by
  induction rest with
  | nil =>
    intro pref nh sc hnh
    simp [apk_loop]
  | cons p rest ih =>
    intro pref nh sc hnh
    have htake : (pref ++ p :: rest).take pref.length = pref := List.take_left pref _
    have hassoc : pref ++ p :: rest = (pref ++ [p]) ++ rest := by simp
    have hlen1 : pref.length + 1 = (pref ++ [p]).length := by simp
    have hcongr : actual.dedup.filter (fun x => x ∉ pref ++ [p]) =
        (actual.dedup.filter (fun x => x ∉ pref)).filter (fun x => x ≠ p) := by
      rw [List.filter_filter]
      apply List.filter_congr
      intro x _
      by_cases h1 : x ∈ pref <;> by_cases h2 : x = p <;>
        simp [h1, h2, List.mem_append]
    by_cases h : p ∈ actual ∧ p ∉ pref
    · have hcond : p ∈ actual ∧ p ∉ (pref ++ p :: rest).take pref.length := by
        rw [htake]; exact h
      simp only [apk_loop, if_pos hcond]
      have hIH := ih (pref ++ [p]) (nh + 1)
        (sc + ((nh : ℚ) + 1) / ((pref.length : ℚ) + 1))
        (by simpa using Nat.succ_le_succ hnh)
      rw [← hassoc, ← hlen1] at hIH
      refine le_trans hIH ?_
      have hterm : ((nh : ℚ) + 1) / ((pref.length : ℚ) + 1) ≤ 1 := by
        apply div_le_one_of_le₀
        · have : (nh : ℚ) ≤ (pref.length : ℚ) := by exact_mod_cast hnh
          linarith
        · positivity
      have hmem : p ∈ actual.dedup.filter (fun x => x ∉ pref) := by
        rw [List.mem_filter]
        exact ⟨List.mem_dedup.mpr h.1, by simpa using h.2⟩
      have hflt : (actual.dedup.filter (fun x => x ∉ pref ++ [p])).length <
          (actual.dedup.filter (fun x => x ∉ pref)).length := by
        rw [hcongr]
        exact length_filter_ne_lt p _ hmem
      have hnat : min rest.length
            ((actual.dedup.filter (fun x => x ∉ pref ++ [p])).length) + 1 ≤
          min (p :: rest).length
            ((actual.dedup.filter (fun x => x ∉ pref)).length) := by
        rw [List.length_cons]
        omega
      have hcast : ((min rest.length
            ((actual.dedup.filter (fun x => x ∉ pref ++ [p])).length) : ℕ) : ℚ) + 1 ≤
          ((min (p :: rest).length
            ((actual.dedup.filter (fun x => x ∉ pref)).length) : ℕ) : ℚ) := by
        exact_mod_cast hnat
      linarith
    · have hcond : ¬(p ∈ actual ∧ p ∉ (pref ++ p :: rest).take pref.length) := by
        rw [htake]; exact h
      simp only [apk_loop, if_neg hcond]
      have hIH := ih (pref ++ [p]) nh sc (by simp; omega)
      rw [← hassoc, ← hlen1] at hIH
      refine le_trans hIH ?_
      have hflt : (actual.dedup.filter (fun x => x ∉ pref ++ [p])).length ≤
          (actual.dedup.filter (fun x => x ∉ pref)).length := by
        rw [hcongr]
        exact List.length_filter_le _ _
      have hnat : min rest.length
            ((actual.dedup.filter (fun x => x ∉ pref ++ [p])).length) ≤
          min (p :: rest).length
            ((actual.dedup.filter (fun x => x ∉ pref)).length) := by
        rw [List.length_cons]
        omega
      have hcast : ((min rest.length
            ((actual.dedup.filter (fun x => x ∉ pref ++ [p])).length) : ℕ) : ℚ) ≤
          ((min (p :: rest).length
            ((actual.dedup.filter (fun x => x ∉ pref)).length) : ℕ) : ℚ) := by
        exact_mod_cast hnat
      linarith

/-- C4: for every `actual`, `predicted` and `k ≥ 1`, `apk` returns a value in
the closed interval `[0, 1]`. -/
theorem apk_mem_unit_interval {α : Type} [DecidableEq α]
    (actual predicted : List α) (k : ℕ) (hk : 1 ≤ k) :
    0 ≤ apk actual predicted k ∧ apk actual predicted k ≤ 1 := by
  simp only [apk]
  by_cases ha : actual = []
  · simp [ha]
  · rw [if_neg ha]
    have hlenpred :
        (if k < predicted.length then predicted.take k else predicted).length ≤ k := by
      split_ifs with h
      · simp
      · omega
    have hscore0 : (0 : ℚ) ≤
        apk_loop actual (if k < predicted.length then predicted.take k else predicted) 0
          (if k < predicted.length then predicted.take k else predicted) 0 0 :=
      le_apk_loop actual _ _ 0 0 0
    have hbound := apk_loop_le actual
      (if k < predicted.length then predicted.take k else predicted) [] 0 0 (Nat.le_refl 0)
    simp at hbound
    have hdedup : actual.dedup.length ≤ actual.length :=
      (List.dedup_sublist actual).length_le
    have hposmin : (1 : ℕ) ≤ min actual.length k := by
      have hlenpos : 1 ≤ actual.length := List.length_pos.mpr ha
      omega
    have hcastpos : (0 : ℚ) < ((min actual.length k : ℕ) : ℚ) := by
      exact_mod_cast Nat.lt_of_lt_of_le Nat.zero_lt_one hposmin
    constructor
    · exact div_nonneg hscore0 (le_of_lt hcastpos)
    · rw [div_le_one hcastpos]
      push_cast
      refine le_min ?_ ?_
      · refine le_trans hbound.2 ?_
        exact_mod_cast hdedup
      · refine le_trans hbound.1 ?_
        exact_mod_cast hlenpred

/-- Witness for C4 at a concrete instance. -/
theorem apk_mem_unit_interval_witness :
    (1 : ℕ) ≤ 10 ∧ (0 ≤ apk [1] [1, 2] 10 ∧ apk ([1] : List ℕ) [1, 2] 10 ≤ 1) :=
  ⟨by norm_num, apk_mem_unit_interval [1] [1, 2] 10 (by norm_num)⟩

/-- C5: for non-empty inputs, `mapk` is the arithmetic mean of `apk` over the
elementwise pairs of `actual` and `predicted`, zipping stopping at the
shorter list. -/
theorem mapk_eq_mean_apk {α : Type} [DecidableEq α]
    (actual predicted : List (List α)) (k : ℕ)
    (_ha : actual ≠ []) (_hp : predicted ≠ []) :
    mapk actual predicted k =
      ((actual.zip predicted).map (fun ap => apk ap.1 ap.2 k)).sum /
        (((actual.zip predicted).length : ℕ) : ℚ) := by
  simp [mapk, np_mean]

/-- Witness for C5 at a concrete instance. -/
theorem mapk_eq_mean_apk_witness :
    ([[1]] : List (List ℕ)) ≠ [] ∧ ([[1]] : List (List ℕ)) ≠ [] ∧
    mapk [[1]] [[1]] 10 =
      ((([[1]] : List (List ℕ)).zip [[1]]).map (fun ap => apk ap.1 ap.2 10)).sum /
        ((((([[1]] : List (List ℕ)).zip [[1]]).length : ℕ)) : ℚ) :=
  ⟨by simp, by simp,
   mapk_eq_mean_apk [[1]] [[1]] 10 (by simp) (by simp)⟩

end Utils
